import Mathlib

/-
  Verification of the Hangman guess-selection engine (hangman_v3.py, app.py).

  Words, patterns and guessed/wrong sets are modelled as lists of characters;
  the wildcard slot is the underscore character.  Python floats are modelled by
  exact arithmetic: rational numbers for the Bayesian scorer and the unigram
  fallback, real numbers for the entropy scorer (which uses log2).  Python
  `set` iteration order is not specified (string hashing is salted per
  process), so every place the code iterates over a set of letters takes an
  explicit enumeration-order parameter `ord`, constrained to enumerate exactly
  the unguessed letters.  Python's `max` over a dict with a key function
  returns the first key attaining the maximum in insertion order; `max` on an
  empty dict raises ValueError, modelled by `Except.error`.
-/

namespace Hangman

/-- The 26-letter lowercase alphabet, in alphabetical order. -/
def alphabetL : List Char := "abcdefghijklmnopqrstuvwxyz".toList

/-- `ord` enumerates (without repetition) exactly the lowercase letters not in
`guessed`: the shallow model of iterating the Python set
`set("abcdefghijklmnopqrstuvwxyz") - guessed` in some order. -/
def IsUnguessedOrder (guessed ord : List Char) : Prop :=
  ord.Nodup ∧ (∀ c ∈ ord, c ∈ alphabetL ∧ c ∉ guessed) ∧
    (∀ c ∈ alphabetL, c ∉ guessed → c ∈ ord)

instance (guessed ord : List Char) : Decidable (IsUnguessedOrder guessed ord) := by
  unfold IsUnguessedOrder; infer_instance

/-! ## Candidate filtering (`filter_candidates`, hangman_v3.py lines 12-36) -/

/-- The inner `matches` predicate of `filter_candidates`: the word has the
pattern's length, agrees with every revealed slot, and carries no wrongly
guessed letter in a wildcard slot. -/
def matchesWord (pattern wrong_guesses word : List Char) : Bool :=
  if word.length ≠ pattern.length then false
  else
    (pattern.zip word).all fun pc =>
      if pc.1 ≠ '_' ∧ pc.2 ≠ pc.1 then false
      else if pc.1 = '_' ∧ pc.2 ∈ wrong_guesses then false
      else true

/-- `filter_candidates(word_list, pattern, wrong_guesses)`. -/
def filter_candidates (word_list : List (List Char)) (pattern wrong_guesses : List Char) :
    List (List Char) :=
  word_list.filter (matchesWord pattern wrong_guesses)

/-- The specification's candidate predicate, stated positionally: length
matches, every non-wildcard slot agrees, and every wildcard slot avoids the
wrong-letter set. -/
def isCandidate (pattern wrong word : List Char) : Prop :=
  word.length = pattern.length ∧
  ∀ i < pattern.length,
    (pattern.getD i '_' ≠ '_' → word.getD i '_' = pattern.getD i '_') ∧
    (pattern.getD i '_' = '_' → word.getD i '_' ∉ wrong)

instance (pattern wrong word : List Char) : Decidable (isCandidate pattern wrong word) := by
  unfold isCandidate; infer_instance

theorem matchesWord_iff (pattern wrong word : List Char) :
    matchesWord pattern wrong word = true ↔ isCandidate pattern wrong word := by
  unfold matchesWord isCandidate
  by_cases hlen : word.length = pattern.length
  · rw [if_neg (not_ne_iff.mpr hlen), List.all_eq_true]
    constructor
    · intro h
      refine ⟨hlen, ?_⟩
      intro i hi
      have hiw : i < word.length := by omega
      have hmem : (pattern.get ⟨i, hi⟩, word.get ⟨i, hiw⟩) ∈ pattern.zip word := by
        rw [List.mem_iff_get]
        refine ⟨⟨i, ?_⟩, ?_⟩
        · rw [List.length_zip]; omega
        · rw [List.get_zip]
      have hb := h _ hmem
      rw [List.getD_eq_get _ _ hi, List.getD_eq_get _ _ hiw]
      by_cases h1 : pattern.get ⟨i, hi⟩ = '_'
      · refine ⟨fun hne => absurd h1 hne, fun _ hw => ?_⟩
        rw [if_neg, if_pos ⟨h1, hw⟩] at hb
        · exact Bool.false_ne_true hb
        · rintro ⟨hcon, -⟩; exact hcon h1
      · refine ⟨fun _ => ?_, fun heq => absurd heq h1⟩
        by_contra hne
        rw [if_pos ⟨h1, hne⟩] at hb
        exact Bool.false_ne_true hb
    · rintro ⟨-, h⟩ pc hpc
      obtain ⟨⟨i, hiz⟩, hget⟩ := List.mem_iff_get.mp hpc
      have hip : i < pattern.length := by
        rw [List.length_zip] at hiz; omega
      have hiw : i < word.length := by
        rw [List.length_zip] at hiz; omega
      rw [List.get_zip] at hget
      have h1 : pc.1 = pattern.get ⟨i, hip⟩ := by rw [← hget]
      have h2 : pc.2 = word.get ⟨i, hiw⟩ := by rw [← hget]
      have hi := h i hip
      rw [List.getD_eq_get _ _ hip, List.getD_eq_get _ _ hiw] at hi
      rw [if_neg, if_neg]
      · rintro ⟨hwild, hmemw⟩
        rw [h1] at hwild
        rw [h2] at hmemw
        exact hi.2 hwild hmemw
      · rintro ⟨hne, hdiff⟩
        rw [h1] at hne
        rw [h2, h1] at hdiff
        exact hdiff (hi.1 hne)
  · rw [if_pos hlen]
    simp only [Bool.false_eq_true, false_iff, not_and]
    intro hcon
    exact absurd hcon hlen

/-- C1: `filter_candidates` returns exactly the corpus words satisfying the
specification's candidate predicate (length match, agreement at revealed
slots, no wrong letter at wildcard slots), in the corpus's original order. -/
theorem filter_candidates_correct (word_list : List (List Char)) (pattern wrong : List Char) :
    filter_candidates word_list pattern wrong
        = word_list.filter (fun w => decide (isCandidate pattern wrong w)) ∧
    (filter_candidates word_list pattern wrong).Sublist word_list ∧
    ∀ w, w ∈ filter_candidates word_list pattern wrong ↔
        w ∈ word_list ∧ isCandidate pattern wrong w := by
  have hcong : filter_candidates word_list pattern wrong
      = word_list.filter (fun w => decide (isCandidate pattern wrong w)) := by
    unfold filter_candidates
    apply List.filter_congr
    intro w _
    by_cases h : isCandidate pattern wrong w
    · rw [(matchesWord_iff pattern wrong w).mpr h, decide_eq_true h]
    · rcases hm : matchesWord pattern wrong w with - | -
      · rw [decide_eq_false h]
      · exact absurd ((matchesWord_iff pattern wrong w).mp hm) h
  refine ⟨hcong, ?_, ?_⟩
  · exact List.filter_sublist word_list
  · intro w
    rw [hcong, List.mem_filter]
    simp

/-- C9: filtering is idempotent — filtering an already-filtered list with the
same pattern and wrong-letter set returns it unchanged. -/
theorem filter_candidates_idem (word_list : List (List Char)) (pattern wrong : List Char) :
    filter_candidates (filter_candidates word_list pattern wrong) pattern wrong
      = filter_candidates word_list pattern wrong := by
  unfold filter_candidates
  rw [List.filter_filter]
  apply List.filter_congr
  intro w _
  rw [Bool.and_self]

/-! ## N-gram statistics (`build_ngram_stats`, hangman_v3.py lines 41-78) -/

/-- The statistics bundle returned by `build_ngram_stats`: the
`unigram_probs` dict as an association list in insertion order, and the
`Counter`/`defaultdict` tables as total functions (absent key = 0, matching
Python's `.get(key, 0)`). -/
structure NgramStats where
  unigram_probs : List (Char × ℚ)
  bigram : Char → Char → ℕ
  trigram : Char → Char → Char → ℕ
  bigram_next_sum : Char → ℕ
  bigram_prev_sum : Char → ℕ
  trigram_lr_sum : Char → Char → ℕ

/-- All letter occurrences scanned by the `for word in words: for i, c in
enumerate(word)` loop, in order. -/
def letterOccs (words : List (List Char)) : List Char := words.join

/-- The adjacent pairs `(word[i-1], word[i])` of one word. -/
def adjPairs (w : List Char) : List (Char × Char) := w.zip w.tail

/-- The adjacent triples `(word[i-2], word[i-1], word[i])` of one word,
nested as `(a, (b, c))`. -/
def adjTriples (w : List Char) : List (Char × Char × Char) :=
  w.zip (w.tail.zip w.tail.tail)

/-- All bigram occurrences across the corpus. -/
def pairOccs (words : List (List Char)) : List (Char × Char) :=
  (words.map adjPairs).join

/-- All trigram occurrences across the corpus. -/
def tripleOccs (words : List (List Char)) : List (Char × Char × Char) :=
  (words.map adjTriples).join

/-- `unigram[c]`: occurrences of the letter `c` in the corpus. -/
def unigramCount (words : List (List Char)) (c : Char) : ℕ :=
  (letterOccs words).count c

/-- `total = sum(unigram.values()) if unigram else 1`: the sum of all unigram
counts is the number of letter occurrences, and the `Counter` is truthy iff
some letter was counted. -/
def totalDenom (words : List (List Char)) : ℕ :=
  if (letterOccs words).length = 0 then 1 else (letterOccs words).length

/-- Deduplication keeping the first occurrence: Python dict/Counter key
order. -/
def firstDedup (l : List Char) : List Char :=
  l.foldl (fun acc c => if c ∈ acc then acc else acc ++ [c]) []

/-- `build_ngram_stats(words)`. -/
def build_ngram_stats (words : List (List Char)) : NgramStats where
  unigram_probs :=
    (firstDedup (letterOccs words)).map
      (fun c => (c, (unigramCount words c : ℚ) / (totalDenom words : ℚ)))
  bigram := fun a b => (pairOccs words).count (a, b)
  trigram := fun a b c => (tripleOccs words).count (a, b, c)
  bigram_next_sum := fun a => (pairOccs words).countP (fun pr => decide (pr.1 = a))
  bigram_prev_sum := fun b => (pairOccs words).countP (fun pr => decide (pr.2 = b))
  trigram_lr_sum := fun a c =>
    (tripleOccs words).countP (fun t => decide (t.1 = a ∧ t.2.2 = c))

/-! ## The three Laplace-smoothed factors of the Bayesian scorer
(hangman_v3.py lines 191-207) -/

/-- Left-context factor `(bigram.get((left,X),0)+alpha) /
(bigram_next_sum.get(left,0)+alpha*V)` with `V = 26`. -/
def leftFactor (s : NgramStats) (alpha : ℚ) (A X : Char) : ℚ :=
  ((s.bigram A X : ℚ) + alpha) / ((s.bigram_next_sum A : ℚ) + alpha * 26)

/-- Right-context factor `(bigram.get((X,right),0)+alpha) /
(bigram_next_sum.get(X,0)+alpha*V)` — the denominator is keyed on `X`. -/
def rightFactor (s : NgramStats) (alpha : ℚ) (X B : Char) : ℚ :=
  ((s.bigram X B : ℚ) + alpha) / ((s.bigram_next_sum X : ℚ) + alpha * 26)

/-- Trigram factor `(trigram.get((left,X,right),0)+alpha) /
(trigram_lr_sum.get((left,right),0)+alpha*V)`. -/
def triFactor (s : NgramStats) (alpha : ℚ) (A X B : Char) : ℚ :=
  ((s.trigram A X B : ℚ) + alpha) / ((s.trigram_lr_sum A B : ℚ) + alpha * 26)

theorem smoothed_factor_unit (c s : ℕ) (alpha : ℚ) (hcs : c ≤ s) (ha : 0 < alpha) :
    0 < ((c : ℚ) + alpha) / ((s : ℚ) + alpha * 26) ∧
      ((c : ℚ) + alpha) / ((s : ℚ) + alpha * 26) ≤ 1 := by
  have hc : (0 : ℚ) ≤ (c : ℚ) := Nat.cast_nonneg c
  have hs : (0 : ℚ) ≤ (s : ℚ) := Nat.cast_nonneg s
  have hcsq : (c : ℚ) ≤ (s : ℚ) := Nat.cast_le.mpr hcs
  have hdenom : (0 : ℚ) < (s : ℚ) + alpha * 26 := by nlinarith
  constructor
  · apply div_pos _ hdenom
    nlinarith
  · rw [div_le_one hdenom]
    nlinarith

theorem bigram_le_next_sum (words : List (List Char)) (a x : Char) :
    (build_ngram_stats words).bigram a x ≤ (build_ngram_stats words).bigram_next_sum a := by
  simp only [build_ngram_stats]
  rw [List.count]
  apply List.countP_mono_left
  intro pr _ hpr
  rw [beq_iff_eq] at hpr
  simp [hpr]

theorem trigram_le_lr_sum (words : List (List Char)) (a x b : Char) :
    (build_ngram_stats words).trigram a x b
      ≤ (build_ngram_stats words).trigram_lr_sum a b := by
  simp only [build_ngram_stats]
  rw [List.count]
  apply List.countP_mono_left
  intro t _ ht
  rw [beq_iff_eq] at ht
  simp [ht]

/-- C8: for statistics built by `build_ngram_stats` and any `alpha > 0`, each
of the three smoothed factors used by the Bayesian scorer lies in `(0, 1]`,
since each numerator `count + alpha` is positive and at most its denominator
`sum + alpha * 26`. -/
theorem bayes_factors_unit_interval (words : List (List Char)) (alpha : ℚ)
    (halpha : 0 < alpha) (A X B : Char) :
    (0 < leftFactor (build_ngram_stats words) alpha A X ∧
      leftFactor (build_ngram_stats words) alpha A X ≤ 1) ∧
    (0 < rightFactor (build_ngram_stats words) alpha X B ∧
      rightFactor (build_ngram_stats words) alpha X B ≤ 1) ∧
    (0 < triFactor (build_ngram_stats words) alpha A X B ∧
      triFactor (build_ngram_stats words) alpha A X B ≤ 1) := by
  refine ⟨?_, ?_, ?_⟩
  · exact smoothed_factor_unit _ _ alpha (bigram_le_next_sum words A X) halpha
  · exact smoothed_factor_unit _ _ alpha (bigram_le_next_sum words X B) halpha
  · exact smoothed_factor_unit _ _ alpha (trigram_le_lr_sum words A X B) halpha

/-- C8 witness at a concrete corpus, `alpha = 1`, letters a, b, c. -/
theorem bayes_factors_unit_interval_witness :
    (0 : ℚ) < 1 ∧
    ((0 < leftFactor (build_ngram_stats [['a', 'b']]) 1 'a' 'b' ∧
        leftFactor (build_ngram_stats [['a', 'b']]) 1 'a' 'b' ≤ 1) ∧
      (0 < rightFactor (build_ngram_stats [['a', 'b']]) 1 'b' 'c' ∧
        rightFactor (build_ngram_stats [['a', 'b']]) 1 'b' 'c' ≤ 1) ∧
      (0 < triFactor (build_ngram_stats [['a', 'b']]) 1 'a' 'b' 'c' ∧
        triFactor (build_ngram_stats [['a', 'b']]) 1 'a' 'b' 'c' ≤ 1)) :=
  ⟨by norm_num, bayes_factors_unit_interval [['a', 'b']] 1 (by norm_num) 'a' 'b' 'c'⟩

/-- C10: on a corpus with no letter occurrences (empty list, or all-empty
words) `build_ngram_stats` yields an empty unigram-probability map, all-zero
bigram/trigram counts and sum tables, and the unigram total denominator
defaults to 1, so nothing raises or divides by zero. -/
theorem build_ngram_stats_empty (words : List (List Char))
    (h : letterOccs words = []) :
    (build_ngram_stats words).unigram_probs = [] ∧
    (∀ a b, (build_ngram_stats words).bigram a b = 0) ∧
    (∀ a b c, (build_ngram_stats words).trigram a b c = 0) ∧
    (∀ a, (build_ngram_stats words).bigram_next_sum a = 0) ∧
    (∀ b, (build_ngram_stats words).bigram_prev_sum b = 0) ∧
    (∀ a c, (build_ngram_stats words).trigram_lr_sum a c = 0) ∧
    totalDenom words = 1 := by
  have hjoin : words.join = [] := h
  have hwords : ∀ w ∈ words, w = [] := List.join_eq_nil.mp hjoin
  have hpairs : pairOccs words = [] := by
    unfold pairOccs
    rw [List.join_eq_nil]
    intro l hl
    obtain ⟨w, hw, rfl⟩ := List.mem_map.mp hl
    rw [hwords w hw]
    rfl
  have htrip : tripleOccs words = [] := by
    unfold tripleOccs
    rw [List.join_eq_nil]
    intro l hl
    obtain ⟨w, hw, rfl⟩ := List.mem_map.mp hl
    rw [hwords w hw]
    rfl
  refine ⟨?_, ?_, ?_, ?_, ?_, ?_, ?_⟩
  · simp only [build_ngram_stats, h]
    rfl
  · intro a b
    simp only [build_ngram_stats, hpairs, List.count_nil]
  · intro a b c
    simp only [build_ngram_stats, htrip, List.count_nil]
  · intro a
    simp only [build_ngram_stats, hpairs, List.countP_nil]
  · intro b
    simp only [build_ngram_stats, hpairs, List.countP_nil]
  · intro a c
    simp only [build_ngram_stats, htrip, List.countP_nil]
  · unfold totalDenom
    rw [h]
    rfl

/-- C10 witness: a list of two empty words. -/
theorem build_ngram_stats_empty_witness :
    letterOccs [[], []] = [] ∧
    ((build_ngram_stats [[], []]).unigram_probs = [] ∧
      (∀ a b, (build_ngram_stats [[], []]).bigram a b = 0) ∧
      (∀ a b c, (build_ngram_stats [[], []]).trigram a b c = 0) ∧
      (∀ a, (build_ngram_stats [[], []]).bigram_next_sum a = 0) ∧
      (∀ b, (build_ngram_stats [[], []]).bigram_prev_sum b = 0) ∧
      (∀ a c, (build_ngram_stats [[], []]).trigram_lr_sum a c = 0) ∧
      totalDenom [[], []] = 1) :=
  ⟨rfl, build_ngram_stats_empty [[], []] rfl⟩

/-! ## Python `max(d, key=d.get)` over an association list: returns the first
key attaining the maximal value; `none` on the empty dict (ValueError). -/

def pyArgmaxGo {β : Type} [LinearOrder β] (cv : Char × β) : List (Char × β) → Char × β
  | [] => cv
  | x :: rest => if cv.2 < x.2 then pyArgmaxGo x rest else pyArgmaxGo cv rest

def pyArgmax {β : Type} [LinearOrder β] : List (Char × β) → Option Char
  | [] => none
  | x :: rest => some (pyArgmaxGo x rest).1

theorem pyArgmaxGo_spec {β : Type} [LinearOrder β] (l : List (Char × β)) :
    ∀ cv : Char × β, pyArgmaxGo cv l ∈ cv :: l ∧
      ∀ y ∈ cv :: l, y.2 ≤ (pyArgmaxGo cv l).2 := by
  induction l with
  | nil =>
    intro cv
    refine ⟨by simp [pyArgmaxGo], ?_⟩
    intro y hy
    rw [List.mem_singleton] at hy
    subst hy
    simp [pyArgmaxGo]
  | cons x rest ih =>
    intro cv
    have hstep : pyArgmaxGo cv (x :: rest)
        = if cv.2 < x.2 then pyArgmaxGo x rest else pyArgmaxGo cv rest := rfl
    by_cases hlt : cv.2 < x.2
    · rw [hstep, if_pos hlt]
      obtain ⟨hmem, hmax⟩ := ih x
      constructor
      · rcases List.mem_cons.mp hmem with hmem | hmem
        · rw [hmem]
          exact List.mem_cons_of_mem _ (List.mem_cons_self x rest)
        · exact List.mem_cons_of_mem _ (List.mem_cons_of_mem _ hmem)
      · intro y hy
        rcases List.mem_cons.mp hy with hy | hy
        · rw [hy]
          exact le_trans (le_of_lt hlt) (hmax x (List.mem_cons_self x rest))
        · exact hmax y hy
    · rw [hstep, if_neg hlt]
      obtain ⟨hmem, hmax⟩ := ih cv
      constructor
      · rcases List.mem_cons.mp hmem with hmem | hmem
        · rw [hmem]
          exact List.mem_cons_self cv (x :: rest)
        · exact List.mem_cons_of_mem _ (List.mem_cons_of_mem _ hmem)
      · intro y hy
        rcases List.mem_cons.mp hy with hy | hy
        · rw [hy]
          exact hmax cv (List.mem_cons_self cv rest)
        · rcases List.mem_cons.mp hy with hy | hy
          · rw [hy]
            exact le_trans (le_of_not_lt hlt) (hmax cv (List.mem_cons_self cv rest))
          · exact hmax y (List.mem_cons_of_mem _ hy)

theorem pyArgmax_spec {β : Type} [LinearOrder β] (l : List (Char × β)) (c : Char)
    (h : pyArgmax l = some c) :
    ∃ v, (c, v) ∈ l ∧ ∀ y ∈ l, y.2 ≤ v := by
  match l, h with
  | x :: rest, h =>
    obtain ⟨hmem, hmax⟩ := pyArgmaxGo_spec rest x
    rw [pyArgmax] at h
    injection h with h
    refine ⟨(pyArgmaxGo x rest).2, ?_, ?_⟩
    · rw [← h]
      exact hmem
    · intro y hy
      exact hmax y hy

theorem pyArgmax_none_iff {β : Type} [LinearOrder β] (l : List (Char × β)) :
    pyArgmax l = none ↔ l = [] := by
  cases l with
  | nil => simp [pyArgmax]
  | cons x rest => simp [pyArgmax]

/-! ## Bayesian scorer (`bayesian_guess`, hangman_v3.py lines 158-214) -/

/-- The `1e-12` prior floor for letters unseen in the corpus. -/
def priorFloor : ℚ := 1 / 10 ^ 12

/-- `unigram_probs.get(X, 1e-12)`. -/
def priorOf (s : NgramStats) (X : Char) : ℚ :=
  match s.unigram_probs.lookup X with
  | some p => p
  | none => priorFloor

/-- `left = pattern[pos - 1] if pos > 0 else None`. -/
def leftOf (pattern : List Char) (pos : ℕ) : Option Char :=
  if 0 < pos then pattern.get? (pos - 1) else none

/-- `right = pattern[pos + 1] if pos < len(pattern) - 1 else None`. -/
def rightOf (pattern : List Char) (pos : ℕ) : Option Char :=
  if pos < pattern.length - 1 then pattern.get? (pos + 1) else none

/-- Left-context multiplier of the likelihood: applied when a left neighbor
exists and is not a wildcard. -/
def leftLik (s : NgramStats) (alpha : ℚ) (left : Option Char) (X : Char) : ℚ :=
  match left with
  | some A => if A ≠ '_' then leftFactor s alpha A X else 1
  | none => 1

/-- Right-context multiplier of the likelihood. -/
def rightLik (s : NgramStats) (alpha : ℚ) (right : Option Char) (X : Char) : ℚ :=
  match right with
  | some B => if B ≠ '_' then rightFactor s alpha X B else 1
  | none => 1

/-- Trigram multiplier of the likelihood: applied when both neighbors exist
and are not wildcards. -/
def triLik (s : NgramStats) (alpha : ℚ) (left right : Option Char) (X : Char) : ℚ :=
  match left, right with
  | some A, some B => if A ≠ '_' ∧ B ≠ '_' then triFactor s alpha A X B else 1
  | _, _ => 1

/-- One wildcard slot's `score = prior * likelihood`, the likelihood being the
sequential product of the applicable factors. -/
def bayesSlotScore (s : NgramStats) (alpha : ℚ) (left right : Option Char) (X : Char) : ℚ :=
  priorOf s X * (leftLik s alpha left X * rightLik s alpha right X * triLik s alpha left right X)

/-- The wildcard positions of the pattern, in order. -/
def wildcardSlots (pattern : List Char) : List ℕ :=
  (List.range pattern.length).filter (fun i => decide (pattern.getD i ' ' = '_'))

/-- `scores[X]` after the accumulation loop: the sum of the slot scores of `X`
over all wildcard slots. -/
def bayesianScore (s : NgramStats) (alpha : ℚ) (pattern : List Char) (X : Char) : ℚ :=
  ((wildcardSlots pattern).map
    (fun pos => bayesSlotScore s alpha (leftOf pattern pos) (rightOf pattern pos) X)).sum

/-- The specification's closed-form score: over every wildcard slot, the prior
times the product of the three explicitly written Laplace-smoothed factors,
each guarded by the existence of the corresponding non-wildcard neighbor
(right-context denominator keyed on `X`). -/
def bayesianScoreSpec (s : NgramStats) (alpha : ℚ) (pattern : List Char) (X : Char) : ℚ :=
  (((List.range pattern.length).filter (fun i => decide (pattern.getD i ' ' = '_'))).map
    (fun i =>
      priorOf s X *
        ((if 0 < i ∧ pattern.getD (i - 1) ' ' ≠ '_'
            then ((s.bigram (pattern.getD (i - 1) ' ') X : ℚ) + alpha)
                / ((s.bigram_next_sum (pattern.getD (i - 1) ' ') : ℚ) + alpha * 26)
            else 1) *
          (if i + 1 < pattern.length ∧ pattern.getD (i + 1) ' ' ≠ '_'
            then ((s.bigram X (pattern.getD (i + 1) ' ') : ℚ) + alpha)
                / ((s.bigram_next_sum X : ℚ) + alpha * 26)
            else 1) *
          (if (0 < i ∧ pattern.getD (i - 1) ' ' ≠ '_')
              ∧ (i + 1 < pattern.length ∧ pattern.getD (i + 1) ' ' ≠ '_')
            then ((s.trigram (pattern.getD (i - 1) ' ') X (pattern.getD (i + 1) ' ') : ℚ) + alpha)
                / ((s.trigram_lr_sum (pattern.getD (i - 1) ' ') (pattern.getD (i + 1) ' ') : ℚ)
                    + alpha * 26)
            else 1)))).sum

theorem leftOf_pos (pattern : List Char) (i : ℕ) (h0 : 0 < i) (h : i < pattern.length) :
    leftOf pattern i = some (pattern.getD (i - 1) ' ') := by
  unfold leftOf
  rw [if_pos h0]
  have h1 : i - 1 < pattern.length := by omega
  rw [List.getD_eq_getElem _ _ h1, List.get?_eq_getElem? , List.getElem?_eq_getElem h1]

theorem rightOf_lt (pattern : List Char) (i : ℕ) (h : i + 1 < pattern.length) :
    rightOf pattern i = some (pattern.getD (i + 1) ' ') := by
  unfold rightOf
  rw [if_pos (by omega : i < pattern.length - 1)]
  rw [List.getD_eq_getElem _ _ h, List.get?_eq_getElem? , List.getElem?_eq_getElem h]

theorem rightOf_last (pattern : List Char) (i : ℕ) (h : ¬ i + 1 < pattern.length) :
    rightOf pattern i = none := by
  unfold rightOf
  rw [if_neg (by omega : ¬ i < pattern.length - 1)]

/-- C3: the accumulated Bayesian score of any letter equals the
specification's closed-form sum over wildcard slots of `prior × likelihood`
with the three guarded Laplace-smoothed factors. -/
theorem bayesianScore_eq_spec (s : NgramStats) (alpha : ℚ) (pattern : List Char) (X : Char) :
    bayesianScore s alpha pattern X = bayesianScoreSpec s alpha pattern X := by
  unfold bayesianScore bayesianScoreSpec wildcardSlots
  congr 1
  apply List.map_congr_left
  intro i hi
  have hilt : i < pattern.length := List.mem_range.mp (List.mem_of_mem_filter hi)
  unfold bayesSlotScore
  by_cases h0 : 0 < i
  · rw [leftOf_pos pattern i h0 hilt]
    by_cases hr : i + 1 < pattern.length
    · rw [rightOf_lt pattern i hr]
      by_cases hgl : pattern.getD (i - 1) ' ' = '_' <;>
        by_cases hgr : pattern.getD (i + 1) ' ' = '_' <;>
        simp [leftLik, rightLik, triLik, leftFactor, rightFactor, triFactor,
          hgl, hgr, h0, hr]
    · rw [rightOf_last pattern i hr]
      by_cases hgl : pattern.getD (i - 1) ' ' = '_' <;>
        simp [leftLik, rightLik, triLik, leftFactor, rightFactor, triFactor,
          hgl, h0, hr]
  · have hi0 : i = 0 := by omega
    subst hi0
    unfold leftOf
    rw [if_neg (lt_irrefl 0)]
    by_cases hr : 0 + 1 < pattern.length
    · rw [rightOf_lt pattern 0 hr]
      by_cases hgr : pattern.getD (0 + 1) ' ' = '_' <;>
        simp [leftLik, rightLik, triLik, leftFactor, rightFactor, triFactor,
          hgr, hr]
    · rw [rightOf_last pattern 0 hr]
      simp [leftLik, rightLik, triLik, hr]

/-- `bayesian_guess(pattern, guessed, ...)`; `ord` is the iteration order of
the Python set `letters = set(alphabet) - guessed`, and the association list
mirrors the `scores` defaultdict, whose keys are exactly `letters` (inserted
on the first wildcard slot) whenever a wildcard slot exists. -/
def bayesian_guess (pattern : List Char) (ord : List Char) (s : NgramStats)
    (alpha : ℚ) : Option Char :=
  if ord.isEmpty then none
  else if (wildcardSlots pattern).isEmpty then none
  else pyArgmax (ord.map (fun X => (X, bayesianScore s alpha pattern X)))

/-- C6: `bayesian_guess` returns `None` exactly when all 26 letters are
guessed or the pattern has no wildcard slot; in every other case it returns a
letter outside the guessed set. -/
theorem bayesian_guess_none_iff (pattern guessed ord : List Char) (s : NgramStats)
    (alpha : ℚ) (hord : IsUnguessedOrder guessed ord) :
    (bayesian_guess pattern ord s alpha = none ↔
      ((∀ c ∈ alphabetL, c ∈ guessed) ∨ ∀ i < pattern.length, pattern.getD i ' ' ≠ '_')) ∧
    (∀ l, bayesian_guess pattern ord s alpha = some l → l ∉ guessed) := by
  obtain ⟨hnd, hmem, hcomplete⟩ := hord
  have hord_empty : ord = [] ↔ ∀ c ∈ alphabetL, c ∈ guessed := by
    constructor
    · intro hnil c hc
      by_contra hcg
      have := hcomplete c hc hcg
      rw [hnil] at this
      exact List.not_mem_nil c this
    · intro hall
      rw [List.eq_nil_iff_forall_not_mem]
      intro c hc
      obtain ⟨hca, hcg⟩ := hmem c hc
      exact hcg (hall c hca)
  have hslots : (wildcardSlots pattern) = [] ↔ ∀ i < pattern.length, pattern.getD i ' ' ≠ '_' := by
    unfold wildcardSlots
    rw [List.filter_eq_nil_iff]
    constructor
    · intro h i hilt heq
      exact h i (List.mem_range.mpr hilt) (decide_eq_true heq)
    · intro h i hir hdec
      exact h i (List.mem_range.mp hir) (of_decide_eq_true hdec)
  constructor
  · unfold bayesian_guess
    by_cases h1 : ord.isEmpty
    · rw [if_pos h1]
      simp only [true_iff]
      left
      exact hord_empty.mp (List.isEmpty_iff.mp h1)
    · rw [if_neg h1]
      by_cases h2 : (wildcardSlots pattern).isEmpty
      · rw [if_pos h2]
        simp only [true_iff]
        right
        exact hslots.mp (List.isEmpty_iff.mp h2)
      · rw [if_neg h2]
        constructor
        · intro hnone
          rw [pyArgmax_none_iff] at hnone
          have : ord = [] := by
            rcases ord with - | ⟨x, rest⟩
            · rfl
            · simp at hnone
          exact absurd (List.isEmpty_iff.mpr this) h1
        · intro hcase
          rcases hcase with hcase | hcase
          · exact absurd (List.isEmpty_iff.mpr (hord_empty.mpr hcase)) h1
          · exact absurd (List.isEmpty_iff.mpr (hslots.mpr hcase)) h2
  · intro l hl
    unfold bayesian_guess at hl
    by_cases h1 : ord.isEmpty
    · rw [if_pos h1] at hl
      exact absurd hl (by simp)
    · rw [if_neg h1] at hl
      by_cases h2 : (wildcardSlots pattern).isEmpty
      · rw [if_pos h2] at hl
        exact absurd hl (by simp)
      · rw [if_neg h2] at hl
        obtain ⟨v, hin, -⟩ := pyArgmax_spec _ l hl
        obtain ⟨X, hX, hXeq⟩ := List.mem_map.mp hin
        have : X = l := congrArg Prod.fst hXeq
        subst this
        exact (hmem X hX).2

/-! ## Python `max` over a plain list: first maximal element wins. -/

def pyMaxGo {α : Type} [LinearOrder α] (cv : α) : List α → α
  | [] => cv
  | x :: rest => if cv < x then pyMaxGo x rest else pyMaxGo cv rest

def pyMax {α : Type} [LinearOrder α] : List α → Option α
  | [] => none
  | x :: rest => some (pyMaxGo x rest)

theorem pyMaxGo_spec {α : Type} [LinearOrder α] (l : List α) :
    ∀ cv : α, pyMaxGo cv l ∈ cv :: l ∧ ∀ y ∈ cv :: l, y ≤ pyMaxGo cv l := by
  induction l with
  | nil =>
    intro cv
    refine ⟨by simp [pyMaxGo], ?_⟩
    intro y hy
    rw [List.mem_singleton] at hy
    subst hy
    simp [pyMaxGo]
  | cons x rest ih =>
    intro cv
    have hstep : pyMaxGo cv (x :: rest)
        = if cv < x then pyMaxGo x rest else pyMaxGo cv rest := rfl
    by_cases hlt : cv < x
    · rw [hstep, if_pos hlt]
      obtain ⟨hmem, hmax⟩ := ih x
      constructor
      · rcases List.mem_cons.mp hmem with hmem | hmem
        · rw [hmem]
          exact List.mem_cons_of_mem _ (List.mem_cons_self x rest)
        · exact List.mem_cons_of_mem _ (List.mem_cons_of_mem _ hmem)
      · intro y hy
        rcases List.mem_cons.mp hy with hy | hy
        · rw [hy]
          exact le_trans (le_of_lt hlt) (hmax x (List.mem_cons_self x rest))
        · exact hmax y hy
    · rw [hstep, if_neg hlt]
      obtain ⟨hmem, hmax⟩ := ih cv
      constructor
      · rcases List.mem_cons.mp hmem with hmem | hmem
        · rw [hmem]
          exact List.mem_cons_self cv (x :: rest)
        · exact List.mem_cons_of_mem _ (List.mem_cons_of_mem _ hmem)
      · intro y hy
        rcases List.mem_cons.mp hy with hy | hy
        · rw [hy]
          exact hmax cv (List.mem_cons_self cv rest)
        · rcases List.mem_cons.mp hy with hy | hy
          · rw [hy]
            exact le_trans (le_of_not_lt hlt) (hmax cv (List.mem_cons_self cv rest))
          · exact hmax y (List.mem_cons_of_mem _ hy)

theorem pyMax_spec {α : Type} [LinearOrder α] (l : List α) (m : α)
    (h : pyMax l = some m) : m ∈ l ∧ ∀ y ∈ l, y ≤ m := by
  match l, h with
  | x :: rest, h =>
    obtain ⟨hmem, hmax⟩ := pyMaxGo_spec rest x
    rw [pyMax] at h
    injection h with h
    subst h
    exact ⟨hmem, fun y hy => hmax y hy⟩

/-! ## Unigram fallback (`fallback_unigram`, hangman_v3.py lines 219-235) -/

/-- `fallback_unigram(unigram_probs, guessed)`.  The dict is an association
list in iteration order; its items are flipped to `(probability, letter)`
tuples compared lexicographically (the Python tuple order), and
`random.choice` is modelled by the injected index `k`, reduced modulo the
number of remaining letters. -/
def fallback_unigram (unigram_probs : List (Char × ℚ)) (guessed : List Char)
    (k : ℕ) : Option Char :=
  let candidates : List (Lex (ℚ × Char)) :=
    (unigram_probs.filter (fun ci => decide (ci.1 ∉ guessed))).map
      (fun ci => toLex (ci.2, ci.1))
  if candidates.isEmpty then
    let remaining := alphabetL.filter (fun i => decide (i ∉ guessed))
    if remaining.isEmpty then none
    else remaining.get? (k % remaining.length)
  else (pyMax candidates).map (fun m => (ofLex m).2)

/-- C7: with fewer than 26 guessed letters the fallback returns a letter:
the `(probability, letter)`-lexicographic maximum over unguessed mapped
letters when one exists (probability first, ties toward the larger letter),
otherwise some unguessed letter; with all 26 letters guessed it returns
`none`. -/
theorem fallback_unigram_ok (unigram_probs : List (Char × ℚ)) (guessed : List Char)
    (k : ℕ) (hkeys : ∀ ci ∈ unigram_probs, ci.1 ∈ alphabetL) :
    ((∃ ci ∈ unigram_probs, ci.1 ∉ guessed) →
      ∃ l p, fallback_unigram unigram_probs guessed k = some l ∧
        (l, p) ∈ unigram_probs ∧ l ∉ guessed ∧
        ∀ ci ∈ unigram_probs, ci.1 ∉ guessed →
          ci.2 < p ∨ (ci.2 = p ∧ ci.1 ≤ l)) ∧
    ((¬ ∃ ci ∈ unigram_probs, ci.1 ∉ guessed) → (∃ c ∈ alphabetL, c ∉ guessed) →
      ∃ l, fallback_unigram unigram_probs guessed k = some l ∧
        l ∈ alphabetL ∧ l ∉ guessed) ∧
    ((∀ c ∈ alphabetL, c ∈ guessed) →
      fallback_unigram unigram_probs guessed k = none) := by
  refine ⟨?_, ?_, ?_⟩
  · rintro ⟨ci, hci, hcig⟩
    have hfilter : ci ∈ unigram_probs.filter (fun ci => decide (ci.1 ∉ guessed)) :=
      List.mem_filter.mpr ⟨hci, decide_eq_true hcig⟩
    have hne : ¬ ((unigram_probs.filter (fun ci => decide (ci.1 ∉ guessed))).map
        (fun ci => toLex (ci.2, ci.1))).isEmpty := by
      rcases hq : unigram_probs.filter (fun ci => decide (ci.1 ∉ guessed)) with - | ⟨a, b⟩
      · rw [hq] at hfilter
        exact absurd hfilter (List.not_mem_nil ci)
      · rw [hq]
        simp
    unfold fallback_unigram
    rw [if_neg hne]
    rcases hmx : pyMax ((unigram_probs.filter (fun ci => decide (ci.1 ∉ guessed))).map
        (fun ci => toLex (ci.2, ci.1))) with - | ⟨m⟩
    · rcases hq : unigram_probs.filter (fun ci => decide (ci.1 ∉ guessed)) with - | ⟨a, b⟩
      · rw [hq] at hfilter
        exact absurd hfilter (List.not_mem_nil ci)
      · rw [hq] at hmx
        rw [List.map_cons, pyMax] at hmx
        exact absurd hmx (by simp)
    · obtain ⟨hmem, hmax⟩ := pyMax_spec _ m hmx
      obtain ⟨cm, hcmf, hcmeq⟩ := List.mem_map.mp hmem
      obtain ⟨hcmp, hcmg⟩ := List.mem_filter.mp hcmf
      refine ⟨cm.1, cm.2, ?_, hcmp, of_decide_eq_true hcmg, ?_⟩
      · rw [hmx, ← hcmeq]
        rfl
      · intro cj hcj hcjg
        have hcjmem : toLex (cj.2, cj.1) ∈
            (unigram_probs.filter (fun ci => decide (ci.1 ∉ guessed))).map
              (fun ci => toLex (ci.2, ci.1)) :=
          List.mem_map.mpr ⟨cj, List.mem_filter.mpr ⟨hcj, decide_eq_true hcjg⟩, rfl⟩
        have hle := hmax _ hcjmem
        rw [← hcmeq] at hle
        rcases (Prod.Lex.le_iff (cj.2, cj.1) (cm.2, cm.1)).mp hle with h | ⟨h1, h2⟩
        · exact Or.inl h
        · exact Or.inr ⟨h1, h2⟩
  · rintro hnone ⟨c, hca, hcg⟩
    have hfe : unigram_probs.filter (fun ci => decide (ci.1 ∉ guessed)) = [] := by
      rw [List.filter_eq_nil_iff]
      intro ci hci hdec
      exact hnone ⟨ci, hci, of_decide_eq_true hdec⟩
    have hre : c ∈ alphabetL.filter (fun i => decide (i ∉ guessed)) :=
      List.mem_filter.mpr ⟨hca, decide_eq_true hcg⟩
    have hrne : ¬ (alphabetL.filter (fun i => decide (i ∉ guessed))).isEmpty := by
      rcases hq : alphabetL.filter (fun i => decide (i ∉ guessed)) with - | ⟨a, b⟩
      · rw [hq] at hre
        exact absurd hre (List.not_mem_nil c)
      · simp
    unfold fallback_unigram
    rw [hfe]
    simp only [List.map_nil, List.isEmpty_nil, if_true]
    rw [if_neg hrne]
    have hlen : 0 < (alphabetL.filter (fun i => decide (i ∉ guessed))).length := by
      rcases hq : alphabetL.filter (fun i => decide (i ∉ guessed)) with - | ⟨a, b⟩
      · rw [hq] at hre
        exact absurd hre (List.not_mem_nil c)
      · simp
    have hklt : k % (alphabetL.filter (fun i => decide (i ∉ guessed))).length
        < (alphabetL.filter (fun i => decide (i ∉ guessed))).length :=
      Nat.mod_lt k hlen
    refine ⟨(alphabetL.filter (fun i => decide (i ∉ guessed))).get
        ⟨k % (alphabetL.filter (fun i => decide (i ∉ guessed))).length, hklt⟩, ?_, ?_, ?_⟩
    · rw [List.get?_eq_getElem? , List.getElem?_eq_getElem hklt]
      rfl
    · exact (List.mem_filter.mp (List.get_mem _ _ hklt)).1
    · exact of_decide_eq_true (List.mem_filter.mp (List.get_mem _ _ hklt)).2
  · intro hall
    have hfe : unigram_probs.filter (fun ci => decide (ci.1 ∉ guessed)) = [] := by
      rw [List.filter_eq_nil_iff]
      intro ci hci hdec
      exact (of_decide_eq_true hdec) (hall ci.1 (hkeys ci hci))
    have hre : alphabetL.filter (fun i => decide (i ∉ guessed)) = [] := by
      rw [List.filter_eq_nil_iff]
      intro c hc hdec
      exact (of_decide_eq_true hdec) (hall c hc)
    unfold fallback_unigram
    rw [hfe]
    simp only [List.map_nil, List.isEmpty_nil, if_true]
    rw [hre]
    rfl

/-- C7 witness: a two-entry mapping with a probability tie, one guessed
letter, and `random.choice` index 0. -/
theorem fallback_unigram_ok_witness :
    (∀ ci ∈ [('e', (1 : ℚ)/2), ('a', (1 : ℚ)/2)], ci.1 ∈ alphabetL) ∧
    (((∃ ci ∈ [('e', (1 : ℚ)/2), ('a', (1 : ℚ)/2)], ci.1 ∉ ['x']) →
      ∃ l p, fallback_unigram [('e', (1 : ℚ)/2), ('a', (1 : ℚ)/2)] ['x'] 0 = some l ∧
        (l, p) ∈ [('e', (1 : ℚ)/2), ('a', (1 : ℚ)/2)] ∧ l ∉ ['x'] ∧
        ∀ ci ∈ [('e', (1 : ℚ)/2), ('a', (1 : ℚ)/2)], ci.1 ∉ ['x'] →
          ci.2 < p ∨ (ci.2 = p ∧ ci.1 ≤ l)) ∧
    ((¬ ∃ ci ∈ [('e', (1 : ℚ)/2), ('a', (1 : ℚ)/2)], ci.1 ∉ ['x']) →
        (∃ c ∈ alphabetL, c ∉ ['x']) →
      ∃ l, fallback_unigram [('e', (1 : ℚ)/2), ('a', (1 : ℚ)/2)] ['x'] 0 = some l ∧
        l ∈ alphabetL ∧ l ∉ ['x']) ∧
    ((∀ c ∈ alphabetL, c ∈ ['x']) →
      fallback_unigram [('e', (1 : ℚ)/2), ('a', (1 : ℚ)/2)] ['x'] 0 = none)) :=
  ⟨by decide, fallback_unigram_ok [('e', (1 : ℚ)/2), ('a', (1 : ℚ)/2)] ['x'] 0 (by decide)⟩

/-! ## Entropy scorer (`entropy_score`, hangman_v3.py lines 102-128) -/

/-- `tuple(i for i, c in enumerate(word) if c == letter)`: the (increasing)
list of positions at which `letter` occurs in `word`. -/
def occMask (letter : Char) (word : List Char) : List ℕ :=
  (List.range word.length).filter (fun i => decide (word.getD i ' ' = letter))

/-- The mask of each candidate, in candidate order. -/
def maskList (letter : Char) (candidates : List (List Char)) : List (List ℕ) :=
  candidates.map (occMask letter)

/-- The values of the `partitions` dict: for each distinct mask, how many
candidates carry it.  (Dict iteration order only permutes the summands of a
commutative sum, so first-insertion order is not modelled.) -/
def partitionCounts (letter : Char) (candidates : List (List Char)) : List ℕ :=
  (maskList letter candidates).dedup.map fun m => (maskList letter candidates).count m

/-- One summand of the entropy loop: `p * log2 p` with `p = part_count / total`. -/
noncomputable def entTerm (N c : ℕ) : ℝ :=
  ((c : ℝ) / (N : ℝ)) * Real.logb 2 ((c : ℝ) / (N : ℝ))

/-- `entropy_score`'s per-letter value: `ent = -Σ p * log2 p` over the
partition counts. -/
noncomputable def entScore (candidates : List (List Char)) (letter : Char) : ℝ :=
  -(((partitionCounts letter candidates).map (entTerm candidates.length)).sum)

/-- The *set* of positions at which `letter` occurs in `word`. -/
def occSet (letter : Char) (word : List Char) : Finset ℕ := (occMask letter word).toFinset

/-- The specification's entropy: partitions group candidates by the exact
set of positions at which the letter occurs; each partition contributes
`p_i * log2 p_i` with `p_i` its share of the candidate list. -/
noncomputable def entSpec (candidates : List (List Char)) (letter : Char) : ℝ :=
  -(∑ m ∈ (candidates.map (occSet letter)).toFinset,
      entTerm candidates.length
        (candidates.countP (fun w => decide (occSet letter w = m))))

theorem occMask_sorted (letter : Char) (word : List Char) :
    (occMask letter word).Sorted (· < ·) :=
  List.Pairwise.sublist (List.filter_sublist _) (List.sorted_lt_range word.length)

theorem sorted_eq_of_toFinset_eq {l1 l2 : List ℕ} (h1 : l1.Sorted (· < ·))
    (h2 : l2.Sorted (· < ·)) (h : l1.toFinset = l2.toFinset) : l1 = l2 :=
  List.eq_of_perm_of_sorted
    (List.perm_of_nodup_nodup_toFinset_eq h1.nodup h2.nodup h) h1 h2

theorem maskList_sorted (letter : Char) (candidates : List (List Char)) :
    ∀ m ∈ maskList letter candidates, m.Sorted (· < ·) := by
  intro m hm
  obtain ⟨w, -, rfl⟩ := List.mem_map.mp hm
  exact occMask_sorted letter w

theorem toFinset_map_list {α β : Type} [DecidableEq α] [DecidableEq β]
    (l : List α) (f : α → β) : (l.map f).toFinset = l.toFinset.image f := by
  apply Finset.ext
  intro b
  simp only [List.mem_toFinset, List.mem_map, Finset.mem_image]

/-- The dict grouping by mask tuple computes the specification's grouping by
position set: the entropy value agrees. -/
theorem entScore_eq_spec (candidates : List (List Char)) (L : Char) :
    entScore candidates L = entSpec candidates L := by
  unfold entScore entSpec
  congr 1
  have hmap : candidates.map (occSet L) = (maskList L candidates).map List.toFinset := by
    unfold maskList occSet
    rw [List.map_map]
    rfl
  rw [hmap, toFinset_map_list]
  rw [Finset.sum_image (fun m1 h1 m2 h2 heq =>
    sorted_eq_of_toFinset_eq
      (maskList_sorted L candidates m1 (List.mem_toFinset.mp h1))
      (maskList_sorted L candidates m2 (List.mem_toFinset.mp h2)) heq)]
  have hdt : (maskList L candidates).dedup.toFinset = (maskList L candidates).toFinset :=
    List.toFinset.ext (fun x => List.mem_dedup)
  rw [← hdt, List.sum_toFinset _ (List.nodup_dedup _)]
  unfold partitionCounts
  rw [List.map_map]
  congr 1
  apply List.map_congr_left
  intro m hm
  have hmm : m ∈ maskList L candidates := List.mem_dedup.mp hm
  have hms : m.Sorted (· < ·) := maskList_sorted L candidates m hmm
  simp only [Function.comp]
  congr 1
  have hcount : (maskList L candidates).count m
      = candidates.countP (fun w => occMask L w == m) := by
    unfold maskList
    rw [List.count, List.countP_map]
    rfl
  rw [hcount]
  apply List.countP_congr
  intro w _
  constructor
  · intro hbeq
    have heq : occMask L w = m := by rw [← beq_iff_eq]; exact hbeq
    apply decide_eq_true
    unfold occSet
    rw [heq]
  · intro hdec
    have hset : occSet L w = m.toFinset := of_decide_eq_true hdec
    have heq : occMask L w = m :=
      sorted_eq_of_toFinset_eq (occMask_sorted L w) hms hset
    rw [beq_iff_eq]
    exact heq

theorem list_sum_nonpos : ∀ {l : List ℝ}, (∀ x ∈ l, x ≤ 0) → l.sum ≤ 0 := by
  intro l
  induction l with
  | nil => intro _; simp
  | cons x xs ih =>
    intro h
    rw [List.sum_cons]
    have hx := h x (List.mem_cons_self x xs)
    have hxs := ih (fun y hy => h y (List.mem_cons_of_mem _ hy))
    linarith

theorem entTerm_nonpos {N c : ℕ} (hc : 1 ≤ c) (hcN : c ≤ N) :
    entTerm N c ≤ 0 := by
  unfold entTerm
  have hN : (0 : ℝ) < (N : ℝ) := by
    have : 0 < N := lt_of_lt_of_le hc hcN
    exact_mod_cast this
  have hp0 : (0 : ℝ) < (c : ℝ) / (N : ℝ) := by
    apply div_pos _ hN
    have : 0 < c := hc
    exact_mod_cast this
  have hp1 : (c : ℝ) / (N : ℝ) ≤ 1 := by
    rw [div_le_one hN]
    exact_mod_cast hcN
  have hlog : Real.logb 2 ((c : ℝ) / (N : ℝ)) ≤ 0 :=
    Real.logb_nonpos (by norm_num) (le_of_lt hp0) hp1
  have := mul_le_mul_of_nonneg_left hlog (le_of_lt hp0)
  simpa using this

theorem partitionCounts_bounds (candidates : List (List Char)) (L : Char) :
    ∀ c ∈ partitionCounts L candidates, 1 ≤ c ∧ c ≤ candidates.length := by
  intro c hc
  obtain ⟨m, hm, rfl⟩ := List.mem_map.mp hc
  constructor
  · have : m ∈ maskList L candidates := List.mem_dedup.mp hm
    exact List.count_pos_iff.mpr this
  · have := List.count_le_length m (maskList L candidates)
    rwa [maskList, List.length_map] at this

/-- Every per-letter entropy is nonnegative. -/
theorem entScore_nonneg (candidates : List (List Char)) (L : Char) :
    0 ≤ entScore candidates L := by
  unfold entScore
  rw [neg_nonneg]
  apply list_sum_nonpos
  intro x hx
  obtain ⟨c, hc, rfl⟩ := List.mem_map.mp hx
  obtain ⟨h1, h2⟩ := partitionCounts_bounds candidates L c hc
  exact entTerm_nonpos h1 h2

theorem dedup_replicate_pos {α : Type} [DecidableEq α] (a : α) :
    ∀ n, 0 < n → (List.replicate n a).dedup = [a] := by
  intro n
  induction n with
  | zero => intro h; exact absurd h (lt_irrefl 0)
  | succ n ih =>
    intro _
    rw [List.replicate_succ]
    rcases Nat.eq_zero_or_pos n with hn | hn
    · subst hn
      rfl
    · rw [List.dedup_cons_of_mem (by rw [List.mem_replicate]; exact ⟨by omega, rfl⟩)]
      exact ih hn

/-- A letter occurring in no candidate word yields a single partition and
entropy 0 (on a nonempty candidate list). -/
theorem entScore_absent (candidates : List (List Char)) (L : Char)
    (hne : candidates ≠ []) (habs : ∀ w ∈ candidates, L ∉ w) :
    entScore candidates L = 0 := by
  have hmask : ∀ w ∈ candidates, occMask L w = [] := by
    intro w hw
    unfold occMask
    rw [List.filter_eq_nil_iff]
    intro i hi hdec
    have hilt : i < w.length := List.mem_range.mp hi
    have hL : L ∈ w := by
      rw [← of_decide_eq_true hdec, List.getD_eq_getElem _ _ hilt]
      exact List.getElem_mem hilt
    exact habs w hw hL
  have hml : maskList L candidates = List.replicate candidates.length ([] : List ℕ) := by
    unfold maskList
    have h1 : candidates.map (occMask L) = candidates.map (fun _ => ([] : List ℕ)) :=
      List.map_congr_left (fun w hw => hmask w hw)
    rw [h1, List.map_const']
  have hN : 0 < candidates.length := List.length_pos.mpr hne
  have hpc : partitionCounts L candidates = [candidates.length] := by
    unfold partitionCounts
    rw [hml, dedup_replicate_pos _ _ hN, List.map_singleton, List.count_replicate_self]
  unfold entScore
  rw [hpc, List.map_singleton, List.sum_singleton]
  unfold entTerm
  have hNne : ((candidates.length : ℕ) : ℝ) ≠ 0 := Nat.cast_ne_zero.mpr (by omega)
  rw [div_self hNne, Real.logb_one, mul_zero, neg_zero]

/-- C4: the per-letter entropy equals the specification's partition entropy
(grouping by the exact occurrence-position set, `p_i` the partition share),
it is nonnegative, and a letter absent from every candidate scores exactly
0. -/
theorem entropy_score_correct (candidates : List (List Char)) (L : Char)
    (hne : candidates ≠ []) :
    entScore candidates L = entSpec candidates L ∧
    0 ≤ entScore candidates L ∧
    ((∀ w ∈ candidates, L ∉ w) → entScore candidates L = 0) :=
  ⟨entScore_eq_spec candidates L, entScore_nonneg candidates L,
    fun habs => entScore_absent candidates L hne habs⟩

/-- C4 witness: two-word candidate list, letter absent from both. -/
theorem entropy_score_correct_witness :
    ([['a', 'b'], ['b', 'a']] : List (List Char)) ≠ [] ∧
    (entScore [['a', 'b'], ['b', 'a']] 'c' = entSpec [['a', 'b'], ['b', 'a']] 'c' ∧
      0 ≤ entScore [['a', 'b'], ['b', 'a']] 'c' ∧
      ((∀ w ∈ ([['a', 'b'], ['b', 'a']] : List (List Char)), 'c' ∉ w) →
        entScore [['a', 'b'], ['b', 'a']] 'c' = 0)) :=
  ⟨by decide, entropy_score_correct [['a', 'b'], ['b', 'a']] 'c' (by decide)⟩

/-! ## Entropy + frequency strategy (`single_letter_freq_score`,
`entropy_guess`, hangman_v3.py lines 83-153) -/

/-- `single_letter_freq_score(candidates, guessed)[letter]` with the
counter's default 0: the number of candidate words containing the letter;
guessed letters are never inserted, so they read as 0. -/
def single_letter_freq_score (candidates : List (List Char)) (guessed : List Char)
    (letter : Char) : ℕ :=
  if letter ∈ guessed then 0
  else candidates.countP (fun word => decide (letter ∈ word))

/-- `combined[letter] = ent_scores[letter] + weight_freq *
freq_scores.get(letter, 0)`. -/
noncomputable def combinedScore (candidates : List (List Char)) (guessed : List Char)
    (weight_freq : ℝ) (letter : Char) : ℝ :=
  entScore candidates letter
    + weight_freq * (single_letter_freq_score candidates guessed letter : ℝ)

/-- `entropy_guess(candidates, guessed, weight_freq)`: `None` on an empty
candidate list; otherwise `max(combined, key=combined.get)` over the
alphabet-set iteration order `ord`, which raises ValueError
(`Except.error`) when the combined dict is empty (no unguessed letter). -/
noncomputable def entropy_guess (candidates : List (List Char)) (guessed : List Char)
    (ord : List Char) (weight_freq : ℝ) : Except Unit (Option Char) :=
  if candidates.isEmpty then Except.ok none
  else
    match pyArgmax (ord.map
        (fun letter => (letter, combinedScore candidates guessed weight_freq letter))) with
    | none => Except.error ()
    | some l => Except.ok (some l)

/-- C5 (amended): on a nonempty candidate list with at least one unguessed
letter, `entropy_guess` returns a letter maximizing the combined
entropy-plus-weighted-frequency score among the unguessed letters; ties are
resolved by the alphabet-set iteration order, not by a fixed total order on
letters. -/
theorem entropy_guess_max (candidates : List (List Char)) (guessed ord : List Char)
    (weight_freq : ℝ) (hne : candidates ≠ []) (hord : IsUnguessedOrder guessed ord)
    (hone : ord ≠ []) :
    ∃ l, entropy_guess candidates guessed ord weight_freq = Except.ok (some l) ∧
      l ∈ alphabetL ∧ l ∉ guessed ∧
      ∀ c ∈ ord, combinedScore candidates guessed weight_freq c
        ≤ combinedScore candidates guessed weight_freq l := by
  obtain ⟨-, hmem, -⟩ := hord
  unfold entropy_guess
  have hcne : ¬ candidates.isEmpty := by
    rcases candidates with - | ⟨w, ws⟩
    · exact absurd rfl hne
    · simp
  rw [if_neg hcne]
  cases hmx : pyArgmax (ord.map
      (fun letter => (letter, combinedScore candidates guessed weight_freq letter))) with
  | none =>
    rw [pyArgmax_none_iff] at hmx
    rcases ord with - | ⟨c, cs⟩
    · exact absurd rfl hone
    · exact absurd hmx (by simp)
  | some l =>
    obtain ⟨v, hin, hmax⟩ := pyArgmax_spec _ l hmx
    obtain ⟨X, hX, hXeq⟩ := List.mem_map.mp hin
    have hXl : X = l := congrArg Prod.fst hXeq
    subst hXl
    have hv : combinedScore candidates guessed weight_freq X = v :=
      congrArg Prod.snd hXeq
    refine ⟨X, rfl, (hmem X hX).1, (hmem X hX).2, ?_⟩
    intro c hc
    have hle := hmax (c, combinedScore candidates guessed weight_freq c)
      (List.mem_map.mpr ⟨c, hc, rfl⟩)
    rw [← hv] at hle
    exact hle

/-- C5 witness: one candidate, one unguessed letter. -/
theorem entropy_guess_max_witness :
    (([['a']] : List (List Char)) ≠ [] ∧
      IsUnguessedOrder ("bcdefghijklmnopqrstuvwxyz".toList) ['a'] ∧
      (['a'] : List Char) ≠ []) ∧
    ∃ l, entropy_guess [['a']] ("bcdefghijklmnopqrstuvwxyz".toList) ['a'] (1/2)
        = Except.ok (some l) ∧
      l ∈ alphabetL ∧ l ∉ ("bcdefghijklmnopqrstuvwxyz".toList) ∧
      ∀ c ∈ (['a'] : List Char),
        combinedScore [['a']] ("bcdefghijklmnopqrstuvwxyz".toList) (1/2) c
          ≤ combinedScore [['a']] ("bcdefghijklmnopqrstuvwxyz".toList) (1/2) l :=
  ⟨⟨by decide, by decide, by decide⟩,
    entropy_guess_max [['a']] ("bcdefghijklmnopqrstuvwxyz".toList) ['a'] (1/2)
      (by decide) (by decide) (by decide)⟩

/-- C5 counterexample: with two unguessed letters of equal combined score,
the returned letter depends on the set iteration order, so it is not
determined by a fixed total order on the letters. -/
theorem entropy_guess_order_dependent :
    IsUnguessedOrder ("abefghijklmnopqrstuvwxyz".toList) ['c', 'd'] ∧
    IsUnguessedOrder ("abefghijklmnopqrstuvwxyz".toList) ['d', 'c'] ∧
    entropy_guess [['a', 'b']] ("abefghijklmnopqrstuvwxyz".toList) ['c', 'd'] (1/2)
      ≠ entropy_guess [['a', 'b']] ("abefghijklmnopqrstuvwxyz".toList) ['d', 'c'] (1/2) := by
  have hc : combinedScore [['a', 'b']] ("abefghijklmnopqrstuvwxyz".toList) (1/2) 'c' = 0 := by
    unfold combinedScore
    rw [entScore_absent _ _ (by decide) (by decide)]
    rw [show single_letter_freq_score [['a', 'b']]
        ("abefghijklmnopqrstuvwxyz".toList) 'c' = 0 from rfl]
    norm_num
  have hd : combinedScore [['a', 'b']] ("abefghijklmnopqrstuvwxyz".toList) (1/2) 'd' = 0 := by
    unfold combinedScore
    rw [entScore_absent _ _ (by decide) (by decide)]
    rw [show single_letter_freq_score [['a', 'b']]
        ("abefghijklmnopqrstuvwxyz".toList) 'd' = 0 from rfl]
    norm_num
  refine ⟨by decide, by decide, ?_⟩
  have hL : entropy_guess [['a', 'b']] ("abefghijklmnopqrstuvwxyz".toList) ['c', 'd'] (1/2)
      = Except.ok (some 'c') := by
    unfold entropy_guess
    rw [if_neg (by decide : ¬ ([['a', 'b']] : List (List Char)).isEmpty = true)]
    rw [List.map_cons, List.map_cons, List.map_nil, hc, hd]
    have hpy : pyArgmax [('c', (0 : ℝ)), ('d', (0 : ℝ))] = some 'c' := by
      simp [pyArgmax, pyArgmaxGo]
    rw [hpy]
  have hR : entropy_guess [['a', 'b']] ("abefghijklmnopqrstuvwxyz".toList) ['d', 'c'] (1/2)
      = Except.ok (some 'd') := by
    unfold entropy_guess
    rw [if_neg (by decide : ¬ ([['a', 'b']] : List (List Char)).isEmpty = true)]
    rw [List.map_cons, List.map_cons, List.map_nil, hc, hd]
    have hpy : pyArgmax [('d', (0 : ℝ)), ('c', (0 : ℝ))] = some 'd' := by
      simp [pyArgmax, pyArgmaxGo]
    rw [hpy]
  rw [hL, hR]
  intro hcon
  injection hcon with h1
  injection h1 with h2
  exact absurd h2 (by decide)

/-- C6 witness: one unguessed letter, a pattern with a wildcard slot. -/
theorem bayesian_guess_none_iff_witness :
    IsUnguessedOrder ("abcdefghijklmnopqrstuvwxy".toList) ['z'] ∧
    ((bayesian_guess ['a', '_'] ['z'] (build_ngram_stats [['a', 'b']]) 1 = none ↔
      ((∀ c ∈ alphabetL, c ∈ ("abcdefghijklmnopqrstuvwxy".toList)) ∨
        ∀ i < (['a', '_'] : List Char).length, (['a', '_'] : List Char).getD i ' ' ≠ '_')) ∧
    (∀ l, bayesian_guess ['a', '_'] ['z'] (build_ngram_stats [['a', 'b']]) 1 = some l →
      l ∉ ("abcdefghijklmnopqrstuvwxy".toList))) :=
  ⟨by decide,
    bayesian_guess_none_iff ['a', '_'] ("abcdefghijklmnopqrstuvwxy".toList) ['z']
      (build_ngram_stats [['a', 'b']]) 1 (by decide)⟩

/-! ## API orchestrator (`get_best_guess`, app.py lines 5-36) -/

/-- `get_best_guess(current_word_state, guessed_letters)` with the module
globals (`words` and the statistics bundle) passed explicitly: strip spaces
from the word state, derive the wrong-guess set, filter candidates, then
entropy-guess if any candidate remains, else Bayesian guess with unigram
fallback.  `ord` is the unguessed-letter iteration order and `k` the
`random.choice` injection. -/
noncomputable def get_best_guess (words : List (List Char)) (s : NgramStats)
    (current_word_state : List Char) (guessed_letters : List Char)
    (ord : List Char) (k : ℕ) : Except Unit (Option Char) :=
  let pattern := current_word_state.filter (fun c => decide (c ≠ ' '))
  let wrong_guesses :=
    guessed_letters.filter (fun c => decide (c ∉ pattern ∧ c ≠ '_'))
  let candidates := filter_candidates words pattern wrong_guesses
  if candidates.isEmpty then
    match bayesian_guess pattern ord s 1 with
    | some g => Except.ok (some g)
    | none => Except.ok (fallback_unigram s.unigram_probs guessed_letters k)
  else entropy_guess candidates guessed_letters ord (1/2)

/-- C2 (code bug): with all 26 letters guessed and a still-nonempty
candidate list, `get_best_guess` does not return a no-valid-guess signal:
`entropy_guess` takes `max` of an empty dict and raises ValueError. -/
theorem get_best_guess_crash :
    IsUnguessedOrder alphabetL [] ∧
    get_best_guess [['a', 'a']] (build_ngram_stats [['a', 'a']])
      ['a', '_'] alphabetL [] 0 = Except.error () :=
  ⟨by decide, rfl⟩

end Hangman
